import Mathlib

/-!
# Verification of `createSortedArraySet` (sorted-array-set)

Shallow embedding of `src/sortedArraySet.ts`: a reactive sorted set built on an
RxJS `BehaviorSubject`.  The store state is a deduplication index
(`uniqueElements`, a JS `Set`) together with the latest published snapshot
(`data`, the current value of the `BehaviorSubject`).  The user-supplied
comparator `sortFn` is modelled by a `LinearOrder` on the element type, and JS
array `.sort(sortFn)` by `List.insertionSort (· ≤ ·)` (for a total order the
sorted permutation of a list is unique, so any correct sort yields the same
list).  JS strict equality `===`, which both the `Set` and `filter` use, is
modelled by decidable equality.

Mutating calls return, besides the new state, a `published` flag (was
`data$.next` invoked?) and, for `add`, a `warned` flag (was `console.warn`
invoked on the null/undefined fast path?).  The element argument of `add` is an
`Option` so that the `element == null` guard is representable.
-/

/-- The store state owned by one `createSortedArraySet` instance:
the JS `Set` `uniqueElements` and the current value of the subject `data$`. -/
structure SortedArraySet (T : Type) [DecidableEq T] where
  uniqueElements : Finset T
  data : List T

variable {T : Type} [LinearOrder T]

/-- `new BehaviorSubject<T[]>([])` with an empty `Set`: the state created by
`createSortedArraySet` before any mutation. -/
def createSortedArraySet (T : Type) [DecidableEq T] : SortedArraySet T :=
  ⟨∅, []⟩

/-- The keys of the object literal passed to `Object.assign(observable$, …)`:
the methods actually exposed on the returned handle. -/
def returnedMethods : List String :=
  ["add", "remove", "has", "getTopN"]

/-- Source `add(element)`.  Returns `(new state, published, warned)`.
Source: null guard with `console.warn`; membership check on `uniqueElements`;
copy-append-sort; `maxSize` eviction via `pop()` (which on the nonempty array
always yields an element, but the source still guards `!== undefined`);
`data$.next(newData)`. -/
def add (maxSize : Option Nat) (s : SortedArraySet T) (element : Option T) :
    SortedArraySet T × Bool × Bool :=
  match element with
  | none => (s, false, true)
  | some e =>
    if e ∈ s.uniqueElements then
      (s, false, false)
    else
      let uniqueElements' := insert e s.uniqueElements
      let newData := List.insertionSort (· ≤ ·) (s.data ++ [e])
      match maxSize with
      | some m =>
        if m < newData.length then
          match newData.getLast? with
          | some lastElement =>
              (⟨uniqueElements'.erase lastElement, newData.dropLast⟩, true, false)
          | none => (⟨uniqueElements', newData.dropLast⟩, true, false)
        else (⟨uniqueElements', newData⟩, true, false)
      | none => (⟨uniqueElements', newData⟩, true, false)

/-- Source `remove(element)`.  Returns `(new state, published)`.  Source: delete from
the `Set`, `filter(e => e !== element)` on the current value, in-place sort of
the fresh filtered array, unconditional `data$.next(newData)`. -/
def remove (s : SortedArraySet T) (element : T) : SortedArraySet T × Bool :=
  (⟨s.uniqueElements.erase element,
    List.insertionSort (· ≤ ·) (s.data.filter (fun x => decide (x ≠ element)))⟩,
   true)

/-- Source `has(element)`: membership test against the dedup index only. -/
def has (s : SortedArraySet T) (element : T) : Bool :=
  decide (element ∈ s.uniqueElements)

/-- Source `clear()`: `uniqueElements.clear(); data$.next([])`.
Returns `(new state, published)`. -/
def clear (_ : SortedArraySet T) : SortedArraySet T × Bool :=
  ((⟨∅, []⟩ : SortedArraySet T), true)

/-- JS `array.slice(0, n)` for an integer `n`: a negative end index counts from
the end of the array (clamped at `0`). -/
def jsSlice (n : Int) (l : List T) : List T :=
  l.take (if n < 0 then (l.length + n).toNat else n.toNat)

/-- Source `getTopN(n)` applied to one snapshot emitted by `data$`:
`data.slice(0, n)`.  The derived observable emits this for every snapshot the
parent publishes. -/
def getTopN (n : Int) (data : List T) : List T :=
  jsSlice n data

/-- The full stream emitted by `getTopN(n)`, given the stream of snapshots
published by the parent subject: `data$.pipe(map(data => data.slice(0, n)))`. -/
def getTopNStream (n : Int) (snapshots : List (List T)) : List (List T) :=
  snapshots.map (getTopN n)

/-- Modelled from the spec: the spec's description of `getTopN`, "emits the
first `min(n, length)` elements", read with the only sensible clamp of a
negative count to zero.  Compared against `getTopN`, which embeds the source's
`slice(0, n)`. -/
def specTopN (n : Int) (data : List T) : List T :=
  data.take (min n (data.length : Int)).toNat

/-- A call a client can make through the handle (the `add` argument is an
`Option` to include the null/undefined case). -/
inductive Op (T : Type) where
  | add (e : Option T)
  | remove (e : T)
  | clear
deriving DecidableEq

/-- The state after one call. -/
def step (maxSize : Option Nat) (s : SortedArraySet T) : Op T → SortedArraySet T
  | .add e => (add maxSize s e).1
  | .remove e => (remove s e).1
  | .clear => (clear s).1

/-- The state after a sequence of calls starting from the freshly created
store. -/
def run (maxSize : Option Nat) (ops : List (Op T)) : SortedArraySet T :=
  ops.foldl (step maxSize) (createSortedArraySet T)

/-- The state after a sequence of (non-null) `add` calls starting from the
freshly created store. -/
def runAdds (maxSize : Option Nat) (l : List T) : SortedArraySet T :=
  run maxSize (l.map (fun e => Op.add (some e)))

/-! ## Basic facts about the modelled sort -/

theorem aux_sorted_le (l : List T) :
    List.Sorted (· ≤ ·) (List.insertionSort (· ≤ ·) l) :=
  List.sorted_insertionSort _ l

theorem aux_sort_perm (l : List T) :
    List.Perm (List.insertionSort (· ≤ ·) l) l :=
  List.perm_insertionSort _ l

theorem aux_mem_sort {l : List T} {x : T} :
    x ∈ List.insertionSort (· ≤ ·) l ↔ x ∈ l :=
  List.mem_insertionSort _

theorem aux_sorted_lt_of_nodup {l : List T} (h1 : List.Sorted (· ≤ ·) l)
    (h2 : l.Nodup) : List.Sorted (· < ·) l :=
  (h1.and h2).imp fun h => lt_of_le_of_ne h.1 h.2

theorem aux_sort_nodup {l : List T} (h : l.Nodup) :
    (List.insertionSort (· ≤ ·) l).Nodup :=
  ((aux_sort_perm l).nodup_iff).mpr h

theorem aux_sort_sorted_lt {l : List T} (h : l.Nodup) :
    List.Sorted (· < ·) (List.insertionSort (· ≤ ·) l) :=
  aux_sorted_lt_of_nodup (aux_sorted_le l) (aux_sort_nodup h)

theorem aux_sort_toFinset (l : List T) :
    (List.insertionSort (· ≤ ·) l).toFinset = l.toFinset :=
  List.toFinset_eq_of_perm _ _ (aux_sort_perm l)

theorem aux_sort_length (l : List T) :
    (List.insertionSort (· ≤ ·) l).length = l.length :=
  List.length_insertionSort _ l

theorem aux_sortApp_length (l : List T) (e : T) :
    (List.insertionSort (· ≤ ·) (l ++ [e])).length = l.length + 1 := by
  rw [aux_sort_length, List.length_append, List.length_singleton]

theorem aux_sortApp_ne_nil (l : List T) (e : T) :
    List.insertionSort (· ≤ ·) (l ++ [e]) ≠ [] := by
  intro h
  have h1 := aux_sortApp_length l e
  rw [h, List.length_nil] at h1
  exact Nat.succ_ne_zero _ h1.symm

theorem aux_le_getLast {l : List T} (hs : List.Sorted (· ≤ ·) l) (hne : l ≠ [])
    {x : T} (hx : x ∈ l) : x ≤ l.getLast hne := by
  have h1 : l.dropLast ++ [l.getLast hne] = l := List.dropLast_append_getLast hne
  rw [← h1] at hs hx
  rcases List.mem_append.mp hx with h | h
  · exact (List.pairwise_append.mp hs).2.2 x h _ (List.mem_singleton_self _)
  · rw [List.mem_singleton.mp h]

theorem aux_toFinset_dropLast {l : List T} (hnd : l.Nodup) (hne : l ≠ []) :
    l.dropLast.toFinset = l.toFinset.erase (l.getLast hne) := by
  have h1 : l.dropLast ++ [l.getLast hne] = l := List.dropLast_append_getLast hne
  have h2 : l.getLast hne ∉ l.dropLast := by
    intro hmem
    have h3 : (l.dropLast ++ [l.getLast hne]).Nodup := h1.symm ▸ hnd
    exact (List.nodup_append.mp h3).2.2 hmem (List.mem_singleton_self _)
  ext x
  constructor
  · intro hx
    rw [List.mem_toFinset] at hx
    refine Finset.mem_erase.mpr ⟨?_, ?_⟩
    · intro heq; exact h2 (heq ▸ hx)
    · rw [List.mem_toFinset, ← h1]
      exact List.mem_append.mpr (Or.inl hx)
  · intro hx
    rcases Finset.mem_erase.mp hx with ⟨hne2, hmem⟩
    rw [List.mem_toFinset] at hmem ⊢
    rw [← h1] at hmem
    rcases List.mem_append.mp hmem with h | h
    · exact h
    · exact absurd (List.mem_singleton.mp h) hne2

/-! ## Branch lemmas for `add` -/

theorem aux_add_mem {maxSize : Option Nat} {s : SortedArraySet T} {e : T}
    (he : e ∈ s.uniqueElements) :
    add maxSize s (some e) = (s, false, false) := by
  simp only [add, if_pos he]

theorem aux_add_none_maxSize {s : SortedArraySet T} {e : T}
    (he : e ∉ s.uniqueElements) :
    add none s (some e) =
      (⟨insert e s.uniqueElements, List.insertionSort (· ≤ ·) (s.data ++ [e])⟩,
       true, false) := by
  simp only [add, if_neg he]

theorem aux_add_fits {m : Nat} {s : SortedArraySet T} {e : T}
    (he : e ∉ s.uniqueElements)
    (hm : ¬ m < (List.insertionSort (· ≤ ·) (s.data ++ [e])).length) :
    add (some m) s (some e) =
      (⟨insert e s.uniqueElements, List.insertionSort (· ≤ ·) (s.data ++ [e])⟩,
       true, false) := by
  simp only [add, if_neg he, if_neg hm]

theorem aux_add_evict {m : Nat} {s : SortedArraySet T} {e : T}
    (he : e ∉ s.uniqueElements)
    (hm : m < (List.insertionSort (· ≤ ·) (s.data ++ [e])).length) :
    add (some m) s (some e) =
      (⟨(insert e s.uniqueElements).erase
          ((List.insertionSort (· ≤ ·) (s.data ++ [e])).getLast
            (aux_sortApp_ne_nil s.data e)),
        (List.insertionSort (· ≤ ·) (s.data ++ [e])).dropLast⟩, true, false) := by
  simp only [add, if_neg he, if_pos hm,
    List.getLast?_eq_getLast _ (aux_sortApp_ne_nil s.data e)]

/-! ## The reachable-state invariant -/

/-- States reachable through the handle: the snapshot is strictly sorted (hence
duplicate-free), the dedup index holds exactly its elements, and the snapshot
respects `maxSize` when one is configured. -/
def StoreInv (maxSize : Option Nat) (s : SortedArraySet T) : Prop :=
  List.Sorted (· < ·) s.data ∧ s.uniqueElements = s.data.toFinset ∧
    ∀ m, maxSize = some m → s.data.length ≤ m

theorem aux_inv_init (maxSize : Option Nat) :
    StoreInv maxSize (createSortedArraySet T) := by
  refine ⟨List.sorted_nil, ?_, ?_⟩
  · simp [createSortedArraySet]
  · intro m _
    simp [createSortedArraySet]

theorem aux_inv_add (maxSize : Option Nat) {s : SortedArraySet T}
    (h : StoreInv maxSize s) (e : Option T) :
    StoreInv maxSize (add maxSize s e).1 := by
  obtain ⟨hsort, hsync, hlen⟩ := h
  match e with
  | none => exact ⟨hsort, hsync, hlen⟩
  | some e =>
    by_cases he : e ∈ s.uniqueElements
    · rw [aux_add_mem he]
      exact ⟨hsort, hsync, hlen⟩
    · have hed : e ∉ s.data := by
        rw [hsync, List.mem_toFinset] at he
        exact he
      have hnd : (s.data ++ [e]).Nodup := by
        rw [List.nodup_append]
        exact ⟨hsort.nodup, List.nodup_singleton e,
          fun x hx hx1 => hed ((List.mem_singleton.mp hx1) ▸ hx)⟩
      have hLsort := aux_sort_sorted_lt hnd
      have hLfin : (List.insertionSort (· ≤ ·) (s.data ++ [e])).toFinset =
          insert e s.uniqueElements := by
        rw [aux_sort_toFinset, List.toFinset_append, List.toFinset_cons,
          List.toFinset_nil, hsync]
        ext x
        simp [or_comm]
      match maxSize with
      | none =>
        rw [aux_add_none_maxSize he]
        exact ⟨hLsort, hLfin.symm, fun m hm => by cases hm⟩
      | some m =>
        by_cases hm : m < (List.insertionSort (· ≤ ·) (s.data ++ [e])).length
        · rw [aux_add_evict he hm]
          have hne := aux_sortApp_ne_nil s.data e
          refine ⟨hLsort.sublist (List.dropLast_sublist _), ?_, ?_⟩
          · rw [aux_toFinset_dropLast hLsort.nodup hne, hLfin]
          · intro m' hm'
            cases hm'
            have h1 : (List.insertionSort (· ≤ ·) (s.data ++ [e])).dropLast.length =
                s.data.length := by
              rw [List.length_dropLast, aux_sortApp_length]
              exact Nat.succ_sub_one s.data.length
            rw [h1]
            exact hlen m rfl
        · rw [aux_add_fits he hm]
          refine ⟨hLsort, hLfin.symm, ?_⟩
          intro m' hm'
          cases hm'
          exact Nat.not_lt.mp hm

theorem aux_filter_sorted_eq {l : List T} (hsort : List.Sorted (· < ·) l)
    (e : T) :
    List.insertionSort (· ≤ ·) (l.filter (fun x => decide (x ≠ e))) =
      l.filter (fun x => decide (x ≠ e)) :=
  List.Sorted.insertionSort_eq ((hsort.filter _).imp le_of_lt)

theorem aux_inv_remove (maxSize : Option Nat) {s : SortedArraySet T}
    (h : StoreInv maxSize s) (e : T) :
    StoreInv maxSize (remove s e).1 := by
  obtain ⟨hsort, hsync, hlen⟩ := h
  refine ⟨?_, ?_, ?_⟩
  · simp only [remove, aux_filter_sorted_eq hsort]
    exact hsort.filter _
  · simp only [remove, aux_filter_sorted_eq hsort]
    rw [hsync, List.toFinset_filter]
    ext x
    simp [Finset.mem_erase, and_comm]
  · intro m hm
    simp only [remove, aux_filter_sorted_eq hsort]
    exact le_trans (List.length_filter_le _ _) (hlen m hm)

theorem aux_inv_clear (maxSize : Option Nat) (s : SortedArraySet T) :
    StoreInv maxSize (clear s).1 := by
  refine ⟨List.sorted_nil, by simp [clear], fun m _ => by simp [clear]⟩

theorem aux_inv_step (maxSize : Option Nat) {s : SortedArraySet T}
    (h : StoreInv maxSize s) (op : Op T) :
    StoreInv maxSize (step maxSize s op) := by
  cases op with
  | add e => exact aux_inv_add maxSize h e
  | remove e => exact aux_inv_remove maxSize h e
  | clear => exact aux_inv_clear maxSize s

theorem aux_inv_foldl (maxSize : Option Nat) {s : SortedArraySet T}
    (h : StoreInv maxSize s) (ops : List (Op T)) :
    StoreInv maxSize (ops.foldl (step maxSize) s) := by
  induction ops generalizing s with
  | nil => exact h
  | cons op rest ih =>
    rw [List.foldl_cons]
    exact ih (aux_inv_step maxSize h op)

theorem aux_inv_run (maxSize : Option Nat) (ops : List (Op T)) :
    StoreInv maxSize (run maxSize ops) :=
  aux_inv_foldl maxSize (aux_inv_init maxSize) ops

/-! ## Claim theorems -/

/-- Claim C7: passing a null/undefined element to `add` is a complete no-op
apart from the logged warning — the state is unchanged, nothing is published,
the warning is emitted, and no failure escapes (the call returns normally). -/
theorem add_null_noop (maxSize : Option Nat) (s : SortedArraySet T) :
    add maxSize s none = (s, false, true) :=
  rfl

/-- Claim C1: the internal `clear` does empty the dedup index and publish the
empty sequence with one publication (so `has` is everywhere false afterwards),
but the handle returned by `createSortedArraySet` does not expose it: `clear`
is missing from the keys passed to `Object.assign`. -/
theorem clear_empties_but_not_exposed (s : SortedArraySet T) :
    "clear" ∉ returnedMethods ∧
      clear s = (⟨∅, []⟩, true) ∧
      (∀ e : T, has (clear s).1 e = false) ∧
      (clear s).1.data = [] := by
  refine ⟨by decide, rfl, ?_, rfl⟩
  intro e
  simp [clear, has]

/-- Claim C6: `remove e` erases `e` from the dedup index (a no-op erase when
absent), rebuilds the sequence by keeping exactly the entries different from
`e`, and performs its single publication even when `e` was never present;
afterwards neither the index nor the published sequence contains `e`. -/
theorem remove_spec (s : SortedArraySet T) (e : T) :
    (remove s e).1.uniqueElements = s.uniqueElements.erase e ∧
      has (remove s e).1 e = false ∧
      e ∉ (remove s e).1.data ∧
      (∀ x, x ∈ (remove s e).1.data ↔ x ∈ s.data ∧ x ≠ e) ∧
      (remove s e).2 = true := by
  refine ⟨rfl, ?_, ?_, ?_, rfl⟩
  · simp [remove, has]
  · simp [remove, aux_mem_sort, List.mem_filter]
  · intro x
    simp [remove, aux_mem_sort, List.mem_filter]

/-- Claim C4: after every sequence of `add` calls (null ones included) starting
from the freshly created store, the published sequence is sorted ascending per
the comparator, for any configured `maxSize`. -/
theorem add_sequence_sorted (maxSize : Option Nat) (l : List (Option T)) :
    List.Sorted (· ≤ ·) (run maxSize (l.map Op.add)).data :=
  ((aux_inv_run maxSize (l.map Op.add)).1).imp le_of_lt

/-- Claim C9: after every sequence of `add`/`remove`/`clear` calls starting
from the freshly created store, the published sequence and the dedup index
hold exactly the same elements, and the sequence length equals the index
cardinality. -/
theorem index_sequence_sync (maxSize : Option Nat) (ops : List (Op T)) :
    (run maxSize ops).data.length = (run maxSize ops).uniqueElements.card ∧
      ∀ x, x ∈ (run maxSize ops).data ↔ x ∈ (run maxSize ops).uniqueElements := by
  obtain ⟨hsort, hsync, -⟩ := aux_inv_run maxSize ops
  constructor
  · rw [hsync, List.toFinset_card_of_nodup hsort.nodup]
  · intro x
    rw [hsync, List.mem_toFinset]

/-- Claim C8, counterexample: for the negative count `-1` and the snapshot
`[0, 1]`, the source's `slice(0, -1)` emits `[0]` (all but the last element),
not the first `min(-1, 2)` elements (the empty prefix). -/
theorem getTopN_negative_counterexample :
    getTopN (-1) [(0 : Int), 1] ≠ specTopN (-1) [(0 : Int), 1] := by
  decide

/-- Claim C8 as amended: for every nonnegative integer `n`, `getTopN n` emits,
for each snapshot published by the parent, exactly one sequence, equal to the
first `min(n, length)` elements of that snapshot. -/
theorem getTopN_nonneg_spec (n : Int) (data : List T)
    (snapshots : List (List T)) (h : 0 ≤ n) :
    getTopN n data = specTopN n data ∧
      (getTopNStream n snapshots).length = snapshots.length := by
  constructor
  · show jsSlice n data = specTopN n data
    rw [jsSlice, specTopN, if_neg (not_lt.mpr h)]
    apply List.take_eq_take.mpr
    omega
  · exact List.length_map snapshots _

/-- Witness for the amended claim C8 at `n = 2`, one published snapshot
`[5, 6, 7]`. -/
theorem getTopN_nonneg_spec_witness :
    (0 : Int) ≤ 2 ∧
      (getTopN 2 [(5 : Int), 6, 7] = specTopN 2 [(5 : Int), 6, 7] ∧
        (getTopNStream 2 [[(5 : Int), 6, 7]]).length = [[(5 : Int), 6, 7]].length) :=
  ⟨by decide, getTopN_nonneg_spec 2 [(5 : Int), 6, 7] [[(5 : Int), 6, 7]] (by decide)⟩

/-- Claim C2: on a full bounded store (`maxSize = m`, snapshot length `m`),
adding a fresh element `e` publishes, evicts exactly the last element of the
newly sorted sequence — a maximum of the old elements together with `e`,
possibly `e` itself — erases that element from the dedup index, and keeps the
`m` smallest elements (every kept element is below the evicted one). -/
theorem add_eviction_spec (m : Nat) (s : SortedArraySet T) (e : T)
    (hsort : List.Sorted (· < ·) s.data)
    (hsync : s.uniqueElements = s.data.toFinset)
    (he : e ∉ s.uniqueElements)
    (hlen : s.data.length = m) :
    ∃ lst,
      (List.insertionSort (· ≤ ·) (s.data ++ [e])).getLast? = some lst ∧
      lst ∈ e :: s.data ∧
      (∀ x ∈ e :: s.data, x ≤ lst) ∧
      add (some m) s (some e) =
        (⟨(insert e s.uniqueElements).erase lst,
          (List.insertionSort (· ≤ ·) (s.data ++ [e])).dropLast⟩, true, false) ∧
      (List.insertionSort (· ≤ ·) (s.data ++ [e])).dropLast =
        (List.insertionSort (· ≤ ·) (s.data ++ [e])).take m ∧
      (add (some m) s (some e)).1.data.length = m ∧
      (∀ x ∈ (add (some m) s (some e)).1.data, x < lst) := by
  have hLlen := aux_sortApp_length s.data e
  have hm : m < (List.insertionSort (· ≤ ·) (s.data ++ [e])).length := by
    rw [hLlen, hlen]; exact Nat.lt_succ_self m
  have hne := aux_sortApp_ne_nil s.data e
  have hed : e ∉ s.data := by rwa [hsync, List.mem_toFinset] at he
  have hnd : (s.data ++ [e]).Nodup := by
    rw [List.nodup_append]
    exact ⟨hsort.nodup, List.nodup_singleton e,
      fun x hx hx1 => hed ((List.mem_singleton.mp hx1) ▸ hx)⟩
  have hLnd := aux_sort_nodup hnd
  have hmem : ∀ x, x ∈ List.insertionSort (· ≤ ·) (s.data ++ [e]) ↔
      x ∈ e :: s.data := by
    intro x
    simp only [aux_mem_sort, List.mem_append, List.mem_cons, List.mem_singleton,
      List.not_mem_nil, or_false]
    exact or_comm
  refine ⟨(List.insertionSort (· ≤ ·) (s.data ++ [e])).getLast hne,
    List.getLast?_eq_getLast _ hne, ?_, ?_, aux_add_evict he hm, ?_, ?_, ?_⟩
  · exact (hmem _).mp (List.getLast_mem hne)
  · intro x hx
    exact aux_le_getLast (aux_sorted_le _) hne ((hmem x).mpr hx)
  · rw [List.dropLast_eq_take, hLlen, hlen, Nat.succ_sub_one]
  · rw [aux_add_evict he hm]
    simp only [List.length_dropLast, hLlen, hlen]
    exact Nat.succ_sub_one m
  · rw [aux_add_evict he hm]
    simp only
    intro x hx
    have hxL : x ∈ List.insertionSort (· ≤ ·) (s.data ++ [e]) :=
      List.dropLast_sublist _ |>.mem hx
    have hxle : x ≤ (List.insertionSort (· ≤ ·) (s.data ++ [e])).getLast hne :=
      aux_le_getLast (aux_sorted_le _) hne hxL
    have hxne : x ≠ (List.insertionSort (· ≤ ·) (s.data ++ [e])).getLast hne := by
      intro hq
      have h1 : (List.insertionSort (· ≤ ·) (s.data ++ [e])).dropLast ++
          [(List.insertionSort (· ≤ ·) (s.data ++ [e])).getLast hne] =
          List.insertionSort (· ≤ ·) (s.data ++ [e]) :=
        List.dropLast_append_getLast hne
      have h2 : ((List.insertionSort (· ≤ ·) (s.data ++ [e])).dropLast ++
          [(List.insertionSort (· ≤ ·) (s.data ++ [e])).getLast hne]).Nodup :=
        h1.symm ▸ hLnd
      exact (List.nodup_append.mp h2).2.2 (hq ▸ hx) (List.mem_singleton_self _)
    exact lt_of_le_of_ne hxle hxne

/-- Witness for claim C2: the full store `{1, 2}` with `maxSize = 2`; adding
`3` evicts `3` itself. -/
theorem add_eviction_spec_witness :
    List.Sorted (· < ·) ([1, 2] : List Int) ∧
      (∃ lst,
        (List.insertionSort (· ≤ ·) (([1, 2] : List Int) ++ [3])).getLast? = some lst ∧
        lst ∈ (3 : Int) :: [1, 2] ∧
        (∀ x ∈ (3 : Int) :: [1, 2], x ≤ lst) ∧
        add (some 2) (⟨{1, 2}, [1, 2]⟩ : SortedArraySet Int) (some 3) =
          (⟨(insert (3 : Int) ({1, 2} : Finset Int)).erase lst,
            (List.insertionSort (· ≤ ·) (([1, 2] : List Int) ++ [3])).dropLast⟩,
           true, false) ∧
        (List.insertionSort (· ≤ ·) (([1, 2] : List Int) ++ [3])).dropLast =
          (List.insertionSort (· ≤ ·) (([1, 2] : List Int) ++ [3])).take 2 ∧
        (add (some 2) (⟨{1, 2}, [1, 2]⟩ : SortedArraySet Int) (some 3)).1.data.length = 2 ∧
        (∀ x ∈ (add (some 2) (⟨{1, 2}, [1, 2]⟩ : SortedArraySet Int) (some 3)).1.data,
          x < lst)) :=
  ⟨by decide,
    add_eviction_spec 2 (⟨{1, 2}, [1, 2]⟩ : SortedArraySet Int) 3
      (by decide) (by decide) (by decide) (by decide)⟩

/-! ## The bounded-store history invariant (claim C3) -/

theorem aux_sortApp_toFinset (l : List T) (e : T) :
    (List.insertionSort (· ≤ ·) (l ++ [e])).toFinset = insert e l.toFinset := by
  rw [aux_sort_toFinset, List.toFinset_append, List.toFinset_cons, List.toFinset_nil]
  ext x
  simp [or_comm]

theorem aux_toFinset_concat (l : List T) (e : T) :
    (l ++ [e]).toFinset = insert e l.toFinset := by
  rw [List.toFinset_append, List.toFinset_cons, List.toFinset_nil]
  ext x
  simp [or_comm]

theorem aux_getLast_not_mem_dropLast {l : List T} (hnd : l.Nodup) (hne : l ≠ []) :
    l.getLast hne ∉ l.dropLast := by
  intro hmem
  have h1 : l.dropLast ++ [l.getLast hne] = l := List.dropLast_append_getLast hne
  have h2 : (l.dropLast ++ [l.getLast hne]).Nodup := h1.symm ▸ hnd
  exact (List.nodup_append.mp h2).2.2 hmem (List.mem_singleton_self _)

theorem aux_nodup_append_singleton {l : List T} {e : T}
    (hnd : l.Nodup) (hed : e ∉ l) : (l ++ [e]).Nodup := by
  rw [List.nodup_append]
  exact ⟨hnd, List.nodup_singleton e,
    fun x hx hx1 => hed ((List.mem_singleton.mp hx1) ▸ hx)⟩

/-- The relation between a reachable bounded store and the set `D` of distinct
elements added so far: the snapshot is strictly sorted, in sync with the dedup
index, drawn from `D`, of length `min maxSize |D|`, and below every element of
`D` that is not retained. -/
def HistInv (m : Nat) (D : Finset T) (s : SortedArraySet T) : Prop :=
  List.Sorted (· < ·) s.data ∧
    s.uniqueElements = s.data.toFinset ∧
    s.data.toFinset ⊆ D ∧
    s.data.length = min m D.card ∧
    ∀ x ∈ s.data, ∀ y ∈ D, y ∉ s.data → x < y

theorem aux_histInv_add (m : Nat) {D : Finset T} {s : SortedArraySet T}
    (h : HistInv m D s) (e : T) :
    HistInv m (insert e D) (add (some m) s (some e)).1 := by
  obtain ⟨hsort, hsync, hsub, hlen, hmin⟩ := h
  by_cases he : e ∈ s.uniqueElements
  · rw [aux_add_mem he]
    have heD : e ∈ D := hsub (by rwa [hsync] at he)
    rw [Finset.insert_eq_self.mpr heD]
    exact ⟨hsort, hsync, hsub, hlen, hmin⟩
  · have hed : e ∉ s.data := by rwa [hsync, List.mem_toFinset] at he
    have hnd := aux_nodup_append_singleton hsort.nodup hed
    have hLsort := aux_sort_sorted_lt hnd
    have hLnd := aux_sort_nodup hnd
    have hLlen := aux_sortApp_length s.data e
    have hLfin := aux_sortApp_toFinset s.data e
    have hLmem : ∀ x, x ∈ List.insertionSort (· ≤ ·) (s.data ++ [e]) ↔
        x ∈ s.data ∨ x = e := by
      intro x
      rw [aux_mem_sort]
      simp
    have hdata_card : s.data.toFinset.card = s.data.length :=
      List.toFinset_card_of_nodup hsort.nodup
    by_cases hm : m < (List.insertionSort (· ≤ ·) (s.data ++ [e])).length
    · -- overflow: the last element of the sorted copy is popped
      have hlenm : s.data.length = m := by
        have h1 : s.data.length ≤ m := hlen ▸ Nat.min_le_left _ _
        rw [hLlen] at hm
        omega
      have hDcard : m ≤ D.card := by
        rcases Nat.le_total D.card m with hc | hc
        · rw [Nat.min_eq_right hc] at hlen
          omega
        · exact hc
      rw [aux_add_evict he hm]
      have hne := aux_sortApp_ne_nil s.data e
      have hmax : ∀ x ∈ List.insertionSort (· ≤ ·) (s.data ++ [e]),
          x ≤ (List.insertionSort (· ≤ ·) (s.data ++ [e])).getLast hne :=
        fun x hx => aux_le_getLast (aux_sorted_le _) hne hx
      have hlst_not := aux_getLast_not_mem_dropLast hLnd hne
      have hdropfin := aux_toFinset_dropLast hLnd hne
      have hdroplen : (List.insertionSort (· ≤ ·) (s.data ++ [e])).dropLast.length = m := by
        rw [List.length_dropLast, hLlen, hlenm]
        exact Nat.succ_sub_one m
      have hdropmem : ∀ x, x ∈ (List.insertionSort (· ≤ ·) (s.data ++ [e])).dropLast →
          x ∈ List.insertionSort (· ≤ ·) (s.data ++ [e]) :=
        fun x hx => (List.dropLast_sublist _).mem hx
      refine ⟨hLsort.sublist (List.dropLast_sublist _), ?_, ?_, ?_, ?_⟩
      · rw [hdropfin, hLfin, hsync]
      · rw [hdropfin]
        exact le_trans (Finset.erase_subset _ _)
          (hLfin ▸ Finset.insert_subset_insert e hsub)
      · rw [hdroplen, Nat.min_eq_left]
        exact le_trans hDcard (Finset.card_le_card (Finset.subset_insert e D))
      · intro x hx y hy hynot
        simp only at hx hynot ⊢
        have hxL := hdropmem x hx
        have hxle := hmax x hxL
        by_cases hylst : y = (List.insertionSort (· ≤ ·) (s.data ++ [e])).getLast hne
        · subst hylst
          refine lt_of_le_of_ne hxle ?_
          intro hq
          exact hlst_not (hq ▸ hx)
        · -- y is an old element neither retained nor just popped
          have hyL : y ∉ List.insertionSort (· ≤ ·) (s.data ++ [e]) := by
            intro hyL
            have h1 := List.dropLast_append_getLast hne
            rw [← h1, List.mem_append, List.mem_singleton] at hyL
            rcases hyL with h2 | h2
            · exact hynot h2
            · exact hylst h2
          have hyd : y ∉ s.data := fun h2 => hyL ((hLmem y).mpr (Or.inl h2))
          have hyne : y ≠ e := fun h2 => hyL ((hLmem y).mpr (Or.inr h2))
          have hyD : y ∈ D := by
            rcases Finset.mem_insert.mp hy with h2 | h2
            · exact absurd h2 hyne
            · exact h2
          rcases (hLmem x).mp hxL with hx2 | hx2
          · exact hmin x hx2 y hyD hyd
          · -- x = e: go through the popped element, which is an old one
            have hlstL : (List.insertionSort (· ≤ ·) (s.data ++ [e])).getLast hne ∈
                List.insertionSort (· ≤ ·) (s.data ++ [e]) := List.getLast_mem hne
            rcases (hLmem _).mp hlstL with hlst2 | hlst2
            · have h3 : (List.insertionSort (· ≤ ·) (s.data ++ [e])).getLast hne < y :=
                hmin _ hlst2 y hyD hyd
              have h4 : x ≠ (List.insertionSort (· ≤ ·) (s.data ++ [e])).getLast hne := by
                intro hq
                exact hlst_not (hq ▸ hx)
              exact lt_trans (lt_of_le_of_ne hxle h4) h3
            · exact absurd (hx2.trans hlst2.symm) (fun hq => hlst_not (hq ▸ hx))
    · -- the new sorted copy still fits
      have hfits : s.data.length + 1 ≤ m := by
        rw [hLlen] at hm
        omega
      have hDc : D.card = s.data.length := by
        rcases Nat.le_total D.card m with hc | hc
        · rw [Nat.min_eq_right hc] at hlen
          exact hlen.symm
        · rw [Nat.min_eq_left hc] at hlen
          omega
      have hFD : s.data.toFinset = D := by
        apply Finset.eq_of_subset_of_card_le hsub
        rw [hdata_card, hDc]
      have heD : e ∉ D := by
        rw [← hFD, List.mem_toFinset]
        exact hed
      rw [aux_add_fits he hm]
      refine ⟨hLsort, ?_, ?_, ?_, ?_⟩
      · rw [hLfin, hsync]
      · rw [hLfin, hFD]
      · rw [hLlen, Finset.card_insert_of_not_mem heD, hDc, Nat.min_eq_right]
        omega
      · intro x hx y hy hynot
        simp only at hx hynot
        exfalso
        rcases Finset.mem_insert.mp hy with h2 | h2
        · exact hynot ((hLmem y).mpr (Or.inr h2))
        · rw [← hFD, List.mem_toFinset] at h2
          exact hynot ((hLmem y).mpr (Or.inl h2))

theorem aux_runAdds_concat (maxSize : Option Nat) (l : List T) (e : T) :
    runAdds maxSize (l ++ [e]) = (add maxSize (runAdds maxSize l) (some e)).1 := by
  simp [runAdds, run, List.foldl_append, step]

theorem aux_histInv_runAdds (m : Nat) (l : List T) :
    HistInv m l.toFinset (runAdds (some m) l) := by
  induction l using List.reverseRecOn with
  | nil =>
    refine ⟨List.sorted_nil, ?_, ?_, ?_, ?_⟩
    · simp [runAdds, run, createSortedArraySet]
    · simp [runAdds, run, createSortedArraySet]
    · simp [runAdds, run, createSortedArraySet]
    · intro x hx
      simp [runAdds, run, createSortedArraySet] at hx
  | append_singleton l e ih =>
    rw [aux_runAdds_concat, aux_toFinset_concat]
    exact aux_histInv_add m ih e

/-- Claim C3: for every `maxSize = m` and every sequence of `add` calls from
the empty store, the published sequence never exceeds length `m` and holds the
`m` smallest distinct elements added so far (all of them when fewer than `m`
distinct elements have been added). -/
theorem maxSize_bound_invariant (m : Nat) (l : List T) :
    (runAdds (some m) l).data.length ≤ m ∧
      (runAdds (some m) l).data.length = min m l.toFinset.card ∧
      (runAdds (some m) l).data.toFinset ⊆ l.toFinset ∧
      (l.toFinset.card ≤ m → (runAdds (some m) l).data.toFinset = l.toFinset) ∧
      ∀ x ∈ (runAdds (some m) l).data, ∀ y ∈ l.toFinset,
        y ∉ (runAdds (some m) l).data → x < y := by
  obtain ⟨hsort, hsync, hsub, hlen, hmin⟩ := aux_histInv_runAdds m l
  refine ⟨?_, hlen, hsub, ?_, hmin⟩
  · rw [hlen]
    exact Nat.min_le_left _ _
  · intro hc
    apply Finset.eq_of_subset_of_card_le hsub
    rw [List.toFinset_card_of_nodup hsort.nodup, hlen, Nat.min_eq_right hc]

/-! ## Idempotence of `add` (claim C5) -/

theorem aux_getLast_congr {l₁ l₂ : List T} (h₁ : l₁ ≠ []) (h₂ : l₂ ≠ [])
    (h : l₁ = l₂) : l₁.getLast h₁ = l₂.getLast h₂ := by
  subst h
  rfl


theorem aux_add_mem_fst (maxSize : Option Nat) (s : SortedArraySet T) {e : T}
    (he : e ∈ s.uniqueElements) : (add maxSize s (some e)).1 = s :=
  congrArg Prod.fst (aux_add_mem he)

theorem aux_add_none_fst (s : SortedArraySet T) {e : T}
    (he : e ∉ s.uniqueElements) :
    (add none s (some e)).1 =
      ⟨insert e s.uniqueElements, List.insertionSort (· ≤ ·) (s.data ++ [e])⟩ :=
  congrArg Prod.fst (aux_add_none_maxSize he)

theorem aux_add_fits_fst (m : Nat) (s : SortedArraySet T) {e : T}
    (he : e ∉ s.uniqueElements)
    (hm : ¬ m < (List.insertionSort (· ≤ ·) (s.data ++ [e])).length) :
    (add (some m) s (some e)).1 =
      ⟨insert e s.uniqueElements, List.insertionSort (· ≤ ·) (s.data ++ [e])⟩ :=
  congrArg Prod.fst (aux_add_fits he hm)

theorem aux_add_evict_fst (m : Nat) (s : SortedArraySet T) {e : T}
    (he : e ∉ s.uniqueElements)
    (hm : m < (List.insertionSort (· ≤ ·) (s.data ++ [e])).length) :
    (add (some m) s (some e)).1 =
      ⟨(insert e s.uniqueElements).erase
          ((List.insertionSort (· ≤ ·) (s.data ++ [e])).getLast
            (aux_sortApp_ne_nil s.data e)),
        (List.insertionSort (· ≤ ·) (s.data ++ [e])).dropLast⟩ :=
  congrArg Prod.fst (aux_add_evict he hm)

theorem aux_add_twice (maxSize : Option Nat) (s : SortedArraySet T) (e : T) :
    (add maxSize (add maxSize s (some e)).1 (some e)).1 =
      (add maxSize s (some e)).1 := by
  by_cases he : e ∈ s.uniqueElements
  · rw [aux_add_mem_fst maxSize s he, aux_add_mem_fst maxSize s he]
  · cases maxSize with
    | none =>
      rw [aux_add_none_fst s he]
      exact aux_add_mem_fst none
        ⟨insert e s.uniqueElements, List.insertionSort (· ≤ ·) (s.data ++ [e])⟩
        (Finset.mem_insert_self e s.uniqueElements)
    | some m =>
      by_cases hm : m < (List.insertionSort (· ≤ ·) (s.data ++ [e])).length
      · have hne := aux_sortApp_ne_nil s.data e
        by_cases helst : e = (List.insertionSort (· ≤ ·) (s.data ++ [e])).getLast hne
        · -- e itself is popped right back out: the second call repeats the
          -- identical computation and lands in the identical state
          have hns : (insert e s.uniqueElements).erase
              ((List.insertionSort (· ≤ ·) (s.data ++ [e])).getLast hne) =
              s.uniqueElements := by
            rw [← helst, Finset.erase_insert he]
          have hL2 : List.insertionSort (· ≤ ·)
              ((List.insertionSort (· ≤ ·) (s.data ++ [e])).dropLast ++ [e]) =
              List.insertionSort (· ≤ ·) (s.data ++ [e]) := by
            nth_rewrite 2 [helst]
            rw [List.dropLast_append_getLast hne]
            exact List.Sorted.insertionSort_eq (aux_sorted_le _)
          have hm2 : m < (List.insertionSort (· ≤ ·)
              ((List.insertionSort (· ≤ ·) (s.data ++ [e])).dropLast ++ [e])).length := by
            rw [hL2]
            exact hm
          rw [aux_add_evict_fst m s he hm, hns]
          rw [aux_add_evict_fst m
            ⟨s.uniqueElements, (List.insertionSort (· ≤ ·) (s.data ++ [e])).dropLast⟩
            he hm2]
          show (⟨(insert e s.uniqueElements).erase
              ((List.insertionSort (· ≤ ·)
                ((List.insertionSort (· ≤ ·) (s.data ++ [e])).dropLast ++ [e])).getLast
                (aux_sortApp_ne_nil
                  ((List.insertionSort (· ≤ ·) (s.data ++ [e])).dropLast) e)),
            (List.insertionSort (· ≤ ·)
              ((List.insertionSort (· ≤ ·) (s.data ++ [e])).dropLast ++ [e])).dropLast⟩ :
            SortedArraySet T) =
            ⟨s.uniqueElements, (List.insertionSort (· ≤ ·) (s.data ++ [e])).dropLast⟩
          have hgl := aux_getLast_congr
            (aux_sortApp_ne_nil
              ((List.insertionSort (· ≤ ·) (s.data ++ [e])).dropLast) e) hne hL2
          rw [hgl, hns, hL2]
        · -- an older element is evicted and e is retained:
          -- the second call is a pure no-op
          rw [aux_add_evict_fst m s he hm]
          exact aux_add_mem_fst (some m)
            ⟨(insert e s.uniqueElements).erase
              ((List.insertionSort (· ≤ ·) (s.data ++ [e])).getLast
                (aux_sortApp_ne_nil s.data e)),
              (List.insertionSort (· ≤ ·) (s.data ++ [e])).dropLast⟩
            (Finset.mem_erase.mpr ⟨helst, Finset.mem_insert_self e _⟩)
      · rw [aux_add_fits_fst m s he hm]
        exact aux_add_mem_fst (some m)
          ⟨insert e s.uniqueElements, List.insertionSort (· ≤ ·) (s.data ++ [e])⟩
          (Finset.mem_insert_self e s.uniqueElements)

/-- Claim C5: calling `add(e)` twice in succession leaves the store — hence the
latest published sequence — exactly as calling it once; when `e` is already
present the call is a no-op that publishes nothing and warns nothing; and a
mutating `add` performs exactly one publication (and no warning). -/
theorem add_idempotent_dedup (maxSize : Option Nat) (s : SortedArraySet T) (e : T) :
    (add maxSize (add maxSize s (some e)).1 (some e)).1 =
        (add maxSize s (some e)).1 ∧
      (add maxSize (add maxSize s (some e)).1 (some e)).1.data =
        (add maxSize s (some e)).1.data ∧
      (e ∈ s.uniqueElements → add maxSize s (some e) = (s, false, false)) ∧
      (e ∉ s.uniqueElements → (add maxSize s (some e)).2 = (true, false)) := by
  refine ⟨aux_add_twice maxSize s e,
    congrArg SortedArraySet.data (aux_add_twice maxSize s e),
    fun he => aux_add_mem he, fun he => ?_⟩
  cases maxSize with
  | none => rw [aux_add_none_maxSize he]
  | some m =>
    by_cases hm : m < (List.insertionSort (· ≤ ·) (s.data ++ [e])).length
    · rw [aux_add_evict he hm]
    · rw [aux_add_fits he hm]

/-! ## Heap-level model: published snapshots are never mutated (claim C10)

JS arrays are mutable references.  To settle the frame claim we re-embed the
three mutating operations at the level of an explicit array heap: addresses are
indices into `heap`, allocation appends, and the in-place `sort`/`pop` steps
are `List.set` at the owning address.  `published` records the address handed
to `data$.next` for each emission (the `BehaviorSubject` constructor publishes
the initial `[]`, address `0`, to its subscribers). -/

structure JSState (T : Type) [DecidableEq T] where
  heap : List (List T)
  uniqueElements : Finset T
  dataAddr : Nat
  published : List Nat

/-- Dereference an address (out-of-bounds reads never occur in runs). -/
def jsRead (h : List (List T)) (a : Nat) : List T :=
  h.getD a []

/-- The heap state made by `createSortedArraySet`. -/
def jsInit (T : Type) [DecidableEq T] : JSState T :=
  ⟨[[]], ∅, 0, [0]⟩

/-- Heap-level `add`: `[...currentData, element]` allocates a fresh array;
`.sort(sortFn)` and `.pop()` mutate only that fresh array in place;
`data$.next(newData)` publishes its address. -/
def jsAdd (maxSize : Option Nat) (st : JSState T) (element : Option T) :
    JSState T :=
  match element with
  | none => st
  | some e =>
    if e ∈ st.uniqueElements then st
    else
      let ue' := insert e st.uniqueElements
      let cur := jsRead st.heap st.dataAddr
      let addr := st.heap.length
      let h1 := st.heap ++ [cur ++ [e]]
      let h2 := h1.set addr (List.insertionSort (· ≤ ·) (jsRead h1 addr))
      match maxSize with
      | some m =>
        if m < (jsRead h2 addr).length then
          let h3 := h2.set addr (jsRead h2 addr).dropLast
          { heap := h3
            uniqueElements :=
              match (jsRead h2 addr).getLast? with
              | some lastElement => ue'.erase lastElement
              | none => ue'
            dataAddr := addr
            published := st.published ++ [addr] }
        else ⟨h2, ue', addr, st.published ++ [addr]⟩
      | none => ⟨h2, ue', addr, st.published ++ [addr]⟩

/-- Heap-level `remove`: `filter` allocates a fresh array, `sort` mutates it
in place, `next` publishes its address. -/
def jsRemove (st : JSState T) (e : T) : JSState T :=
  let cur := jsRead st.heap st.dataAddr
  let addr := st.heap.length
  let h1 := st.heap ++ [cur.filter (fun x => decide (x ≠ e))]
  let h2 := h1.set addr (List.insertionSort (· ≤ ·) (jsRead h1 addr))
  ⟨h2, st.uniqueElements.erase e, addr, st.published ++ [addr]⟩

/-- Heap-level `clear`: `data$.next([])` publishes a fresh empty array. -/
def jsClear (st : JSState T) : JSState T :=
  ⟨st.heap ++ [[]], ∅, st.heap.length, st.published ++ [st.heap.length]⟩

def jsStep (maxSize : Option Nat) (st : JSState T) : Op T → JSState T
  | .add e => jsAdd maxSize st e
  | .remove e => jsRemove st e
  | .clear => jsClear st

def jsRun (maxSize : Option Nat) (ops : List (Op T)) : JSState T :=
  ops.foldl (jsStep maxSize) (jsInit T)

theorem aux_jsRead_append {h : List (List T)} {v : List T} {a : Nat}
    (ha : a < h.length) : jsRead (h ++ [v]) a = jsRead h a := by
  unfold jsRead
  simp only [List.getD_eq_getElem?_getD]
  rw [List.getElem?_append, if_pos ha]

theorem aux_jsRead_set_ne {h : List (List T)} {v : List T} {a n : Nat}
    (hne : a ≠ n) : jsRead (h.set n v) a = jsRead h a := by
  unfold jsRead
  simp only [List.getD_eq_getElem?_getD]
  rw [List.getElem?_set_ne (fun q => hne q.symm)]

/-- One step never writes below the old heap top. -/
theorem aux_jsStep_frame (maxSize : Option Nat) (st : JSState T) (op : Op T)
    {a : Nat} (ha : a < st.heap.length) :
    jsRead (jsStep maxSize st op).heap a = jsRead st.heap a := by
  have hlt : a ≠ st.heap.length := Nat.ne_of_lt ha
  cases op with
  | add e =>
    match e with
    | none => rfl
    | some e =>
      show jsRead (jsAdd maxSize st (some e)).heap a = jsRead st.heap a
      rw [jsAdd]
      by_cases he : e ∈ st.uniqueElements
      · rw [if_pos he]
      · rw [if_neg he]
        cases maxSize with
        | none =>
          simp only
          rw [aux_jsRead_set_ne hlt, aux_jsRead_append ha]
        | some m =>
          simp only
          by_cases hm : m < (jsRead ((st.heap ++
              [jsRead st.heap st.dataAddr ++ [e]]).set st.heap.length
                (List.insertionSort (· ≤ ·)
                  (jsRead (st.heap ++ [jsRead st.heap st.dataAddr ++ [e]])
                    st.heap.length))) st.heap.length).length
          · rw [if_pos hm]
            simp only
            rw [aux_jsRead_set_ne hlt, aux_jsRead_set_ne hlt, aux_jsRead_append ha]
          · rw [if_neg hm]
            simp only
            rw [aux_jsRead_set_ne hlt, aux_jsRead_append ha]
  | remove e =>
    show jsRead (jsRemove st e).heap a = jsRead st.heap a
    rw [jsRemove]
    simp only
    rw [aux_jsRead_set_ne hlt, aux_jsRead_append ha]
  | clear =>
    show jsRead (jsClear st).heap a = jsRead st.heap a
    rw [jsClear]
    simp only
    rw [aux_jsRead_append ha]

/-- One step never shrinks the heap. -/
theorem aux_jsStep_heap_le (maxSize : Option Nat) (st : JSState T) (op : Op T) :
    st.heap.length ≤ (jsStep maxSize st op).heap.length := by
  cases op with
  | add e =>
    match e with
    | none => exact le_refl _
    | some e =>
      show st.heap.length ≤ (jsAdd maxSize st (some e)).heap.length
      rw [jsAdd]
      by_cases he : e ∈ st.uniqueElements
      · rw [if_pos he]
      · rw [if_neg he]
        cases maxSize with
        | none =>
          simp only [List.length_set, List.length_append]
          omega
        | some m =>
          simp only
          by_cases hm : m < (jsRead ((st.heap ++
              [jsRead st.heap st.dataAddr ++ [e]]).set st.heap.length
                (List.insertionSort (· ≤ ·)
                  (jsRead (st.heap ++ [jsRead st.heap st.dataAddr ++ [e]])
                    st.heap.length))) st.heap.length).length
          · rw [if_pos hm]
            simp only [List.length_set, List.length_append]
            omega
          · rw [if_neg hm]
            simp only [List.length_set, List.length_append]
            omega
  | remove e =>
    show st.heap.length ≤ (jsRemove st e).heap.length
    rw [jsRemove]
    simp only [List.length_set, List.length_append]
    omega
  | clear =>
    show st.heap.length ≤ (jsClear st).heap.length
    rw [jsClear]
    simp only [List.length_append]
    omega

/-- One step publishes only valid addresses. -/
theorem aux_jsStep_published (maxSize : Option Nat) (st : JSState T) (op : Op T)
    (hv : ∀ a ∈ st.published, a < st.heap.length) :
    ∀ a ∈ (jsStep maxSize st op).published, a < (jsStep maxSize st op).heap.length := by
  have hmono := aux_jsStep_heap_le maxSize st op
  cases op with
  | add e =>
    match e with
    | none => exact fun a ha => lt_of_lt_of_le (hv a ha) hmono
    | some e =>
      intro a ha
      by_cases he : e ∈ st.uniqueElements
      · have h1 : jsStep maxSize st (Op.add (some e)) = st := by
          show jsAdd maxSize st (some e) = st
          rw [jsAdd, if_pos he]
        rw [h1] at ha ⊢
        exact hv a ha
      · have hpub : (jsStep maxSize st (Op.add (some e))).published =
            st.published ++ [st.heap.length] := by
          show (jsAdd maxSize st (some e)).published = _
          rw [jsAdd, if_neg he]
          cases maxSize with
          | none => rfl
          | some m =>
            simp only
            by_cases hm : m < (jsRead ((st.heap ++
                [jsRead st.heap st.dataAddr ++ [e]]).set st.heap.length
                  (List.insertionSort (· ≤ ·)
                    (jsRead (st.heap ++ [jsRead st.heap st.dataAddr ++ [e]])
                      st.heap.length))) st.heap.length).length
            · rw [if_pos hm]
            · rw [if_neg hm]
        have hheap : st.heap.length < (jsStep maxSize st (Op.add (some e))).heap.length := by
          have hpub2 : (jsStep maxSize st (Op.add (some e))).heap.length =
              st.heap.length + 1 := by
            show (jsAdd maxSize st (some e)).heap.length = _
            rw [jsAdd, if_neg he]
            cases maxSize with
            | none =>
              simp only [List.length_set, List.length_append,
                List.length_singleton]
            | some m =>
              simp only
              by_cases hm : m < (jsRead ((st.heap ++
                  [jsRead st.heap st.dataAddr ++ [e]]).set st.heap.length
                    (List.insertionSort (· ≤ ·)
                      (jsRead (st.heap ++ [jsRead st.heap st.dataAddr ++ [e]])
                        st.heap.length))) st.heap.length).length
              · rw [if_pos hm]
                simp only [List.length_set, List.length_append,
                  List.length_singleton]
              · rw [if_neg hm]
                simp only [List.length_set, List.length_append,
                  List.length_singleton]
          omega
        rw [hpub] at ha
        rcases List.mem_append.mp ha with h1 | h1
        · exact lt_of_lt_of_le (hv a h1) hmono
        · rw [List.mem_singleton.mp h1]
          exact hheap
  | remove e =>
    intro a ha
    have ha2 : a ∈ st.published ++ [st.heap.length] := ha
    have hlen : (jsStep maxSize st (Op.remove e)).heap.length =
        st.heap.length + 1 := by
      show (jsRemove st e).heap.length = _
      rw [jsRemove]
      simp only [List.length_set, List.length_append, List.length_singleton]
    rcases List.mem_append.mp ha2 with h1 | h1
    · exact lt_of_lt_of_le (hv a h1) hmono
    · rw [List.mem_singleton.mp h1, hlen]
      omega
  | clear =>
    intro a ha
    have ha2 : a ∈ st.published ++ [st.heap.length] := ha
    have hlen : (jsStep maxSize st Op.clear).heap.length =
        st.heap.length + 1 := by
      show (jsClear st).heap.length = _
      rw [jsClear]
      simp only [List.length_append, List.length_singleton]
    rcases List.mem_append.mp ha2 with h1 | h1
    · exact lt_of_lt_of_le (hv a h1) hmono
    · rw [List.mem_singleton.mp h1, hlen]
      omega

theorem aux_jsFoldl_frame (maxSize : Option Nat) (ops : List (Op T)) :
    ∀ (st : JSState T) (a : Nat), a < st.heap.length →
      jsRead (ops.foldl (jsStep maxSize) st).heap a = jsRead st.heap a := by
  induction ops with
  | nil =>
    intro st a _
    rfl
  | cons op rest ih =>
    intro st a ha
    rw [List.foldl_cons]
    have h1 : a < (jsStep maxSize st op).heap.length :=
      lt_of_lt_of_le ha (aux_jsStep_heap_le maxSize st op)
    rw [ih _ a h1, aux_jsStep_frame maxSize st op ha]

theorem aux_jsFoldl_valid (maxSize : Option Nat) (ops : List (Op T)) :
    ∀ (st : JSState T), (∀ a ∈ st.published, a < st.heap.length) →
      ∀ a ∈ (ops.foldl (jsStep maxSize) st).published,
        a < (ops.foldl (jsStep maxSize) st).heap.length := by
  induction ops with
  | nil =>
    intro st hv
    exact hv
  | cons op rest ih =>
    intro st hv
    rw [List.foldl_cons]
    exact ih _ (aux_jsStep_published maxSize st op hv)

theorem aux_jsRun_valid (maxSize : Option Nat) (ops : List (Op T)) :
    ∀ a ∈ (jsRun maxSize ops).published, a < (jsRun maxSize ops).heap.length := by
  apply aux_jsFoldl_valid
  intro a ha
  rw [jsInit] at ha ⊢
  simp only [List.mem_singleton] at ha
  rw [ha]
  simp [List.length_singleton]

/-- Claim C10: no later `add`/`remove`/`clear` call ever mutates an array that
was already published: in the heap-level model, every address published after
`ops₁` dereferences to the same array contents after any continuation `ops₂`
(add copies before sorting in place, remove filters into a fresh array, clear
publishes a fresh empty array — in-place writes only ever hit the fresh
allocation). -/
theorem published_snapshots_immutable (maxSize : Option Nat)
    (ops₁ ops₂ : List (Op T)) (a : Nat)
    (ha : a ∈ (jsRun maxSize ops₁).published) :
    jsRead (jsRun maxSize (ops₁ ++ ops₂)).heap a =
      jsRead (jsRun maxSize ops₁).heap a := by
  have ha2 : a < (jsRun maxSize ops₁).heap.length :=
    aux_jsRun_valid maxSize ops₁ a ha
  show jsRead ((ops₁ ++ ops₂).foldl (jsStep maxSize) (jsInit T)).heap a = _
  rw [List.foldl_append]
  exact aux_jsFoldl_frame maxSize ops₂ (jsRun maxSize ops₁) a ha2

/-- Witness for claim C10: after `add(1)` the published addresses are
`[0, 1]`; the snapshot at address `1` survives a subsequent `clear()` and
`add(2)` unchanged. -/
theorem published_snapshots_immutable_witness :
    1 ∈ (jsRun none [Op.add (some (1 : Int))]).published ∧
      jsRead (jsRun none
          ([Op.add (some (1 : Int))] ++ [Op.clear, Op.add (some 2)])).heap 1 =
        jsRead (jsRun none [Op.add (some (1 : Int))]).heap 1 :=
  ⟨by decide,
    published_snapshots_immutable none [Op.add (some 1)] [Op.clear, Op.add (some 2)] 1
      (by decide)⟩
